import Mathlib

/-!
Shallow embedding of the belt DWP authenticated-encryption mode from
`src/crypto/belt/belt_dwp.c` (bee2), on a little-endian host
(`OCTET_ORDER == LITTLE_ENDIAN`), so all byte-order conditional blocks of the
source drop out.  The external belt primitives that are not part of the
sources in scope — the scheduled block cipher (`beltBlockEncr2` plus key
schedule), the GF(2^128) multiplication (`beltPolyMul`), the CTR engine
internals (`belt_ctr.c`), the half-block length counters (`belt_lcl.c`) and
the H constant (`belt.c`) — are taken as opaque-function parameters of the
state, or modelled from the specification where documented below.
-/

/-- Octets are natural numbers; valid octets are below 256. -/
abbrev Octet := Nat

/-- Blocks are 16-octet lists, in memory order of a little-endian host. -/
abbrev Block := List Octet

/-- Little-endian serialization of a natural number into `k` octets. -/
def natToOctetsLE : Nat → Nat → List Octet
  | 0, _ => []
  | k + 1, n => n % 256 :: natToOctetsLE k (n / 256)

/-- Big-endian serialization of a natural number into `k` octets. -/
def natToOctetsBE (k n : Nat) : List Octet :=
  (natToOctetsLE k n).reverse

/-- Big-endian reading of octets as a natural number. -/
def octetsToNatBE (l : List Octet) : Nat :=
  l.foldl (fun a o => a * 256 + o) 0

/-- Source `beltBlockXor2(dst, src)` on a little-endian host: octet-wise XOR
(the result is the new value of `dst`). -/
def beltBlockXor (a b : Block) : Block :=
  List.zipWith (fun x y => x ^^^ y) a b

/-- Modelled from the spec: the fixed 16-octet constant `H[0..16]` (the first
16 octets of the belt H-table of STB 34.101.31) loaded by
`wwFrom(s->t, beltH(), 16)` as the initial accumulator value; `belt.c` is not
among the sources in scope. -/
def beltH0 : Block :=
  [0xB1, 0x94, 0xBA, 0xC8, 0x0A, 0x08, 0xF5, 0x3B,
   0x36, 0x6D, 0x00, 0x8E, 0x58, 0x4A, 0x5D, 0xE4]

/-- Modelled from the spec: the 128-bit `len` field as a 16-octet block, two
64-bit bit-length counters (`belt_lcl.c` is not among the sources in scope):
low half = header counter `len.lo`, high half = payload counter `len.hi`,
each serialized little-endian as it is laid out on a little-endian host. -/
def lenBlock (lo hi : Nat) : Block :=
  natToOctetsLE 8 lo ++ natToOctetsLE 8 hi

/-- One universal-hash absorption: `t ← (t XOR b) · r`, the source pair
`beltBlockXor2(t, b); beltPolyMul(t, t, r, stack)`, with `pm` the opaque
`beltPolyMul`. -/
def absorb1 (pm : Block → Block → Block) (r t b : Block) : Block :=
  pm (beltBlockXor t b) r

/-- While-loop over full 16-octet blocks (lines 98–108 and 152–162 of
`belt_dwp.c`): absorb each full block, return the final accumulator and the
remaining (fewer than 16) octets. -/
def absorbLoopF (pm : Block → Block → Block) (r : Block) :
    Nat → Block → List Octet → Block × List Octet
  | 0, t, buf => (t, buf)
  | n + 1, t, buf =>
      if 16 ≤ buf.length then
        absorbLoopF pm r n (absorb1 pm r t (buf.take 16)) (buf.drop 16)
      else
        (t, buf)

/-- The absorption while-loop, at its natural iteration bound (the bound is
immaterial once it is at least `buf.length`, see `absorbLoopF_fuel`; it only
makes the recursion structural so the kernel can evaluate it). -/
def absorbLoop (pm : Block → Block → Block) (r t : Block) (buf : List Octet) :
    Block × List Octet :=
  absorbLoopF pm r buf.length t buf

/-- Shared accumulation tail of `beltDWPStepI`/`beltDWPStepA` (lines 79–112
and 133–166 of `belt_dwp.c`): complete the staged block if possible, absorb
full blocks, stage the remainder.  The staging buffer `block[16]` is
represented by its valid prefix `block[0..filled)`; octets of `block` beyond
`filled` are never read by the source before being overwritten. -/
def dwpAccum (pm : Block → Block → Block) (r t : Block) (pending buf : List Octet) :
    Block × List Octet :=
  if pending.length ≠ 0 then
    if buf.length < 16 - pending.length then
      (t, pending ++ buf)
    else
      absorbLoop pm r (absorb1 pm r t (pending ++ buf.take (16 - pending.length)))
        (buf.drop (16 - pending.length))
  else
    absorbLoop pm r t buf

/-- Modelled from the spec: the CTR keystream transformation octet by octet
(`belt_ctr.c` is not among the sources in scope).  Consume buffered keystream
octets first; when they run out, increment the counter by 1 modulo 2^128
(treated as a big-endian integer per the spec) and encrypt it to refill the
keystream block.  Returns the transformed buffer, the new counter and the
remaining keystream octets. -/
def ctrCrypt (E : Block → Block) : List Octet → Nat → List Octet →
    List Octet × Nat × List Octet
  | [], c, ks => ([], c, ks)
  | o :: rest, c, k :: ks =>
      let p := ctrCrypt E rest c ks
      ((o ^^^ k) :: p.1, p.2)
  | o :: rest, c, [] =>
      let c2 := (c + 1) % 2 ^ 128
      let kb := E (natToOctetsBE 16 c2)
      let p := ctrCrypt E rest c2 kb.tail
      ((o ^^^ kb.headD 0) :: p.1, p.2)

/-- The DWP state `belt_dwp_st` of `belt_dwp.c` (lines 28–38).  The CTR
sub-state is flattened into the counter value `ctr` and the unconsumed
keystream octets `ks`; the scheduled cipher key is carried as the opaque
block-encryption function `encr`, the external `beltPolyMul` as `pmul`.  The
`mac` field (scratch for StepV) and the multiplication `stack` are scratch
only and omitted; the staging buffer `block[16]` is represented by its valid
prefix, so `filled = block.length`. -/
@[ext]
structure belt_dwp_st where
  encr : Block → Block
  pmul : Block → Block → Block
  ctr : Nat
  ks : List Octet
  r : Block
  t : Block
  lenLo : Nat
  lenHi : Nat
  block : List Octet

/-- Source field `filled`: the number of staged octets. -/
def belt_dwp_st.filled (s : belt_dwp_st) : Nat :=
  s.block.length

/-- Source `beltDWPStart` (lines 45–63): start the CTR engine (modelled from
the spec: counter initialized from the 16-octet `iv`, no keystream buffered),
set `r` to the encryption of the initial counter block, load the H constant
into `t`, zero the length counters and the staging buffer.  `E` is the belt
key schedule plus block encryption, `pm` the external `beltPolyMul`. -/
def beltDWPStart (E : List Octet → Block → Block) (pm : Block → Block → Block)
    (key iv : List Octet) : belt_dwp_st :=
  { encr := E key
    pmul := pm
    ctr := octetsToNatBE iv
    ks := []
    r := E key iv
    t := beltH0
    lenLo := 0
    lenHi := 0
    block := [] }

/-- Source `beltDWPStepE` (lines 65–68): delegate to `beltCTRStepE`, which
XORs keystream into the buffer (modelled from the spec, `belt_ctr.c` not in
scope).  Returns the transformed buffer and the updated state. -/
def beltDWPStepE (buf : List Octet) (s : belt_dwp_st) : List Octet × belt_dwp_st :=
  let p := ctrCrypt s.encr buf s.ctr s.ks
  (p.1, { s with ctr := p.2.1, ks := p.2.2 })

/-- Source `beltDWPStepD` (lines 168–171): delegate to `beltCTRStepD`, which
is the same keystream XOR as `beltCTRStepE` (modelled from the spec: StepD is
identical to StepE, CTR being symmetric). -/
def beltDWPStepD (buf : List Octet) (s : belt_dwp_st) : List Octet × belt_dwp_st :=
  beltDWPStepE buf s

/-- Precondition asserted by `beltDWPStepI` (line 75 of `belt_dwp.c`):
`count == 0 || beltHalfBlockIsZero(s->len + W_OF_B(64))`, i.e. the call is
empty or no payload bits have been counted yet. -/
def beltDWPStepI_assert (buf : List Octet) (s : belt_dwp_st) : Prop :=
  buf.length = 0 ∨ s.lenHi = 0

instance (buf : List Octet) (s : belt_dwp_st) :
    Decidable (beltDWPStepI_assert buf s) := by
  unfold beltDWPStepI_assert; infer_instance

/-- Source `beltDWPStepI` (lines 70–112): add `8·count` bits to the header
counter `len.lo` (64-bit wraparound), then run the shared accumulation. -/
def beltDWPStepI (buf : List Octet) (s : belt_dwp_st) : belt_dwp_st :=
  let p := dwpAccum s.pmul s.r s.t s.block buf
  { s with lenLo := (s.lenLo + 8 * buf.length) % 2 ^ 64, t := p.1, block := p.2 }

/-- Source `beltDWPStepA` without the phase-boundary branch (lines 130–166 of
`belt_dwp.c`): add `8·count` bits to the payload counter `len.hi` (64-bit
wraparound), then run the shared accumulation. -/
def beltDWPStepA_noPad (buf : List Octet) (s : belt_dwp_st) : belt_dwp_st :=
  let p := dwpAccum s.pmul s.r s.t s.block buf
  { s with lenHi := (s.lenHi + 8 * buf.length) % 2 ^ 64, t := p.1, block := p.2 }

/-- Source `beltDWPStepA` (lines 114–166): on the first non-empty payload
call (`count && beltHalfBlockIsZero(len.hi) && filled`), zero-pad the staged
block to 16 octets, absorb it and reset `filled`; then proceed as the common
accumulation path. -/
def beltDWPStepA (buf : List Octet) (s : belt_dwp_st) : belt_dwp_st :=
  if buf.length ≠ 0 ∧ s.lenHi = 0 ∧ s.block.length ≠ 0 then
    beltDWPStepA_noPad buf
      { s with t := absorb1 s.pmul s.r s.t (s.block ++ List.replicate (16 - s.block.length) 0)
               block := [] }
  else
    beltDWPStepA_noPad buf s

/-- Source `beltDWPStepG_internal` (lines 173–196): zero-pad and absorb any
staged octets, XOR the `len` block into `t` and multiply by `r`, then encrypt
`t` with the cipher key.  (The byte-swap block guarded by
`OCTET_ORDER == BIG_ENDIAN && B_PER_W != 32` is excluded on a little-endian
host.) -/
def beltDWPStepG_internal (s : belt_dwp_st) : belt_dwp_st :=
  let t1 := if s.block.length ≠ 0 then
      absorb1 s.pmul s.r s.t (s.block ++ List.replicate (16 - s.block.length) 0)
    else s.t
  let t2 := absorb1 s.pmul s.r t1 (lenBlock s.lenLo s.lenHi)
  { s with t := s.encr t2, block := [] }

/-- Source `beltDWPStepG` (lines 198–204): finalize, then emit through
`u32To(mac, 8, t)` — on a little-endian host the first 8 octets of `t` in
memory order. -/
def beltDWPStepG (s : belt_dwp_st) : List Octet × belt_dwp_st :=
  ((beltDWPStepG_internal s).t.take 8, beltDWPStepG_internal s)

/-- Source `beltDWPStepV` (lines 206–216): finalize, then compare the first
8 octets of `t` with the supplied mac (`memEq(mac, s->t, 8)`). -/
def beltDWPStepV (mac : List Octet) (s : belt_dwp_st) : Bool × belt_dwp_st :=
  (decide (mac.take 8 = (beltDWPStepG_internal s).t.take 8), beltDWPStepG_internal s)

/-- Full 16-octet chunks of a list, in order (verification helper describing
the blocks the absorption while-loop consumes). -/
def fullChunks (l : List Octet) : List Block :=
  if h : 16 ≤ l.length then
    l.take 16 :: fullChunks (l.drop 16)
  else
    []
termination_by l.length
decreasing_by simp [List.length_drop]; omega

/-- Remainder of a list after removing all full 16-octet chunks
(verification helper). -/
def remChunk (l : List Octet) : List Octet :=
  if h : 16 ≤ l.length then
    remChunk (l.drop 16)
  else
    l
termination_by l.length
decreasing_by simp [List.length_drop]; omega

/-- Left fold of single-block absorption over a list of blocks
(verification helper). -/
def absorbMany (pm : Block → Block → Block) (r t : Block) (bs : List Block) : Block :=
  bs.foldl (absorb1 pm r) t

/-- Fold of `beltDWPStepI` over a list of header chunks. -/
def stepIList (cs : List (List Octet)) (s : belt_dwp_st) : belt_dwp_st :=
  cs.foldl (fun s c => beltDWPStepI c s) s

/-- Streaming encryption loop as `beltDWPWrap` drives it, one payload chunk
at a time: encrypt the chunk with `beltDWPStepE`, absorb the produced
ciphertext chunk with `beltDWPStepA`; returns the concatenated ciphertext and
the final state. -/
def wrapChunks : List (List Octet) → belt_dwp_st → List Octet × belt_dwp_st
  | [], s => ([], s)
  | c :: cs, s =>
      let p := beltDWPStepE c s
      let s2 := beltDWPStepA p.1 p.2
      let q := wrapChunks cs s2
      (p.1 ++ q.1, q.2)

/-- Follows the words of the spec for `step_g` finalization: pad any residual
block with zeros and absorb it, XOR the `len` block into `t`, multiply by
`r`, then encrypt the resulting 128-bit block with the cipher key. -/
def dwpFinalizeSpec (s : belt_dwp_st) : Block :=
  let t1 := if s.block.length ≠ 0 then
      absorb1 s.pmul s.r s.t (s.block ++ List.replicate (16 - s.block.length) 0)
    else s.t
  s.encr (s.pmul (beltBlockXor t1 (lenBlock s.lenLo s.lenHi)) s.r)

/-- Follows the words of the claim for tag emission: the low 8 octets of the
finalized block interpreted big-endian, i.e. reversed relative to the
little-endian memory order of the low half. -/
def dwpTagSpecBE (s : belt_dwp_st) : List Octet :=
  ((dwpFinalizeSpec s).take 8).reverse

/-- Error codes of the one-shot API (`err.h` values surfaced by
`belt_dwp.c`). -/
inductive err_t where
  | ERR_OK
  | ERR_BAD_INPUT
  | ERR_OUTOFMEMORY
  | ERR_BAD_MAC
  deriving DecidableEq

/-- Source `beltDWPWrap` (lines 218–246).  `valid` is the conjunction of the
`memIsValid` buffer checks (modelled from the spec as an oracle, `mem.c` not
in scope); `allocOk` tells whether `blobCreate` succeeds.  `dest0`/`mac0` are
the prior contents of the output buffers, returned unchanged on failure.  On
success: absorb the header first (`src2` may alias `dest`), encrypt the
payload in place, absorb the ciphertext, emit the tag. -/
def beltDWPWrap (E : List Octet → Block → Block) (pm : Block → Block → Block)
    (allocOk valid : Bool) (dest0 mac0 src1 src2 key iv : List Octet) :
    err_t × List Octet × List Octet :=
  if (key.length ≠ 16 ∧ key.length ≠ 24 ∧ key.length ≠ 32) ∨ valid = false then
    (err_t.ERR_BAD_INPUT, dest0, mac0)
  else if allocOk = false then
    (err_t.ERR_OUTOFMEMORY, dest0, mac0)
  else
    let s0 := beltDWPStart E pm key iv
    let s1 := beltDWPStepI src2 s0
    let p := beltDWPStepE src1 s1
    let s3 := beltDWPStepA p.1 p.2
    let g := beltDWPStepG s3
    (err_t.ERR_OK, p.1, g.1)

/-- Source `beltDWPUnwrap` (lines 248–280).  Same oracles as `beltDWPWrap`;
`dest0` is the prior contents of `dest`, returned unchanged unless
verification succeeds, in which case `dest` receives the decryption of
`src1`. -/
def beltDWPUnwrap (E : List Octet → Block → Block) (pm : Block → Block → Block)
    (allocOk valid : Bool) (dest0 src1 src2 mac key iv : List Octet) :
    err_t × List Octet :=
  if (key.length ≠ 16 ∧ key.length ≠ 24 ∧ key.length ≠ 32) ∨ valid = false then
    (err_t.ERR_BAD_INPUT, dest0)
  else if allocOk = false then
    (err_t.ERR_OUTOFMEMORY, dest0)
  else
    let s0 := beltDWPStart E pm key iv
    let s1 := beltDWPStepI src2 s0
    let s2 := beltDWPStepA src1 s1
    let v := beltDWPStepV mac s2
    if v.1 = false then
      (err_t.ERR_BAD_MAC, dest0)
    else
      (err_t.ERR_OK, (beltDWPStepD src1 v.2).1)

/-! Equations and normal form for the absorption loop. -/

theorem absorbLoopF_fuel (pm : Block → Block → Block) (r : Block) :
    ∀ (n m : Nat) (t : Block) (buf : List Octet), buf.length ≤ n → buf.length ≤ m →
      absorbLoopF pm r n t buf = absorbLoopF pm r m t buf := by
  intro n
  induction n with
  | zero =>
      intro m t buf hn hm
      have hb : buf = [] := List.length_eq_zero.mp (by omega)
      subst hb
      cases m <;> simp [absorbLoopF]
  | succ n ih =>
      intro m t buf hn hm
      cases m with
      | zero =>
          have hb : buf = [] := List.length_eq_zero.mp (by omega)
          subst hb
          simp [absorbLoopF]
      | succ m =>
          simp only [absorbLoopF]
          by_cases h : 16 ≤ buf.length
          · rw [if_pos h, if_pos h]
            exact ih m _ _ (by simp; omega) (by simp; omega)
          · rw [if_neg h, if_neg h]

theorem absorbLoop_step (pm : Block → Block → Block) (r t : Block) (buf : List Octet)
    (h : 16 ≤ buf.length) :
    absorbLoop pm r t buf = absorbLoop pm r (absorb1 pm r t (buf.take 16)) (buf.drop 16) := by
  unfold absorbLoop
  obtain ⟨n, hn⟩ : ∃ n, buf.length = n + 1 := ⟨buf.length - 1, by omega⟩
  rw [hn]
  simp only [absorbLoopF]
  rw [if_pos h]
  exact absorbLoopF_fuel pm r n (buf.drop 16).length _ _ (by simp; omega) (le_refl _)

theorem absorbLoop_done (pm : Block → Block → Block) (r t : Block) (buf : List Octet)
    (h : buf.length < 16) :
    absorbLoop pm r t buf = (t, buf) := by
  unfold absorbLoop
  cases hb : buf.length with
  | zero => simp [absorbLoopF]
  | succ n =>
      simp only [absorbLoopF]
      rw [if_neg (by omega)]

theorem fullChunks_step (l : List Octet) (h : 16 ≤ l.length) :
    fullChunks l = l.take 16 :: fullChunks (l.drop 16) := by
  rw [fullChunks, dif_pos h]

theorem fullChunks_done (l : List Octet) (h : l.length < 16) :
    fullChunks l = [] := by
  rw [fullChunks, dif_neg (by omega)]

theorem remChunk_step (l : List Octet) (h : 16 ≤ l.length) :
    remChunk l = remChunk (l.drop 16) := by
  rw [remChunk, dif_pos h]

theorem remChunk_done (l : List Octet) (h : l.length < 16) :
    remChunk l = l := by
  rw [remChunk, dif_neg (by omega)]

theorem remChunk_length (l : List Octet) : (remChunk l).length < 16 := by
  by_cases h : 16 ≤ l.length
  · rw [remChunk_step l h]
    exact remChunk_length (l.drop 16)
  · rw [remChunk_done l (by omega)]
    omega
termination_by l.length
decreasing_by simp [List.length_drop]; omega

theorem absorbMany_cons (pm : Block → Block → Block) (r t b : Block) (bs : List Block) :
    absorbMany pm r t (b :: bs) = absorbMany pm r (absorb1 pm r t b) bs := by
  simp [absorbMany]

theorem absorbMany_append (pm : Block → Block → Block) (r t : Block) (bs cs : List Block) :
    absorbMany pm r t (bs ++ cs) = absorbMany pm r (absorbMany pm r t bs) cs := by
  simp [absorbMany, List.foldl_append]

theorem absorbLoop_nf (pm : Block → Block → Block) (r t : Block) (l : List Octet) :
    absorbLoop pm r t l = (absorbMany pm r t (fullChunks l), remChunk l) := by
  by_cases h : 16 ≤ l.length
  · rw [absorbLoop_step pm r t l h, fullChunks_step l h, remChunk_step l h,
      absorbMany_cons, absorbLoop_nf pm r _ (l.drop 16)]
  · rw [absorbLoop_done pm r t l (by omega), fullChunks_done l (by omega),
      remChunk_done l (by omega)]
    simp [absorbMany]
termination_by l.length
decreasing_by simp [List.length_drop]; omega

theorem fullChunks_append (u b : List Octet) :
    fullChunks (u ++ b) = fullChunks u ++ fullChunks (remChunk u ++ b) := by
  by_cases h : 16 ≤ u.length
  · have h16 : 16 ≤ (u ++ b).length := by simp; omega
    rw [fullChunks_step (u ++ b) h16, fullChunks_step u h, remChunk_step u h,
      List.take_append_of_le_length h, List.drop_append_of_le_length h,
      fullChunks_append (u.drop 16) b]
    simp
  · rw [remChunk_done u (by omega), fullChunks_done u (by omega)]
    simp
termination_by u.length
decreasing_by simp [List.length_drop]; omega

theorem remChunk_append (u b : List Octet) :
    remChunk (u ++ b) = remChunk (remChunk u ++ b) := by
  by_cases h : 16 ≤ u.length
  · have h16 : 16 ≤ (u ++ b).length := by simp; omega
    rw [remChunk_step (u ++ b) h16, remChunk_step u h,
      List.drop_append_of_le_length h, remChunk_append (u.drop 16) b]
  · rw [remChunk_done u (by omega)]
termination_by u.length
decreasing_by simp [List.length_drop]; omega

theorem dwpAccum_nf (pm : Block → Block → Block) (r t : Block)
    (pending buf : List Octet) (hp : pending.length < 16) :
    dwpAccum pm r t pending buf =
      (absorbMany pm r t (fullChunks (pending ++ buf)), remChunk (pending ++ buf)) := by
  unfold dwpAccum
  by_cases h0 : pending.length = 0
  · have : pending = [] := List.length_eq_zero.mp h0
    subst this
    simp [absorbLoop_nf]
  · rw [if_pos h0]
    by_cases hshort : buf.length < 16 - pending.length
    · have hlen : (pending ++ buf).length < 16 := by simp; omega
      rw [if_pos hshort, fullChunks_done _ hlen, remChunk_done _ hlen]
      simp [absorbMany]
    · have hlen : 16 ≤ (pending ++ buf).length := by simp; omega
      rw [if_neg hshort]
      have htake : (pending ++ buf).take 16 = pending ++ buf.take (16 - pending.length) := by
        rw [List.take_append_eq_append_take, List.take_of_length_le (by omega)]
      have hdrop : (pending ++ buf).drop 16 = buf.drop (16 - pending.length) := by
        rw [List.drop_append_eq_append_drop, List.drop_of_length_le (by omega)]
        simp
      rw [absorbLoop_nf, fullChunks_step _ hlen, remChunk_step _ hlen, htake, hdrop,
        absorbMany_cons]

/-! Projection lemmas: which fields each step reads and writes. -/

@[simp] theorem beltDWPStepE_encr (buf : List Octet) (s : belt_dwp_st) :
    (beltDWPStepE buf s).2.encr = s.encr := rfl

@[simp] theorem beltDWPStepE_pmul (buf : List Octet) (s : belt_dwp_st) :
    (beltDWPStepE buf s).2.pmul = s.pmul := rfl

@[simp] theorem beltDWPStepE_r (buf : List Octet) (s : belt_dwp_st) :
    (beltDWPStepE buf s).2.r = s.r := rfl

@[simp] theorem beltDWPStepE_t (buf : List Octet) (s : belt_dwp_st) :
    (beltDWPStepE buf s).2.t = s.t := rfl

@[simp] theorem beltDWPStepE_lenLo (buf : List Octet) (s : belt_dwp_st) :
    (beltDWPStepE buf s).2.lenLo = s.lenLo := rfl

@[simp] theorem beltDWPStepE_lenHi (buf : List Octet) (s : belt_dwp_st) :
    (beltDWPStepE buf s).2.lenHi = s.lenHi := rfl

@[simp] theorem beltDWPStepE_block (buf : List Octet) (s : belt_dwp_st) :
    (beltDWPStepE buf s).2.block = s.block := rfl

@[simp] theorem beltDWPStepE_fst (buf : List Octet) (s : belt_dwp_st) :
    (beltDWPStepE buf s).1 = (ctrCrypt s.encr buf s.ctr s.ks).1 := rfl

@[simp] theorem beltDWPStepE_ctr (buf : List Octet) (s : belt_dwp_st) :
    (beltDWPStepE buf s).2.ctr = (ctrCrypt s.encr buf s.ctr s.ks).2.1 := rfl

@[simp] theorem beltDWPStepE_ks (buf : List Octet) (s : belt_dwp_st) :
    (beltDWPStepE buf s).2.ks = (ctrCrypt s.encr buf s.ctr s.ks).2.2 := rfl

@[simp] theorem beltDWPStepI_encr (buf : List Octet) (s : belt_dwp_st) :
    (beltDWPStepI buf s).encr = s.encr := rfl

@[simp] theorem beltDWPStepI_pmul (buf : List Octet) (s : belt_dwp_st) :
    (beltDWPStepI buf s).pmul = s.pmul := rfl

@[simp] theorem beltDWPStepI_ctr (buf : List Octet) (s : belt_dwp_st) :
    (beltDWPStepI buf s).ctr = s.ctr := rfl

@[simp] theorem beltDWPStepI_ks (buf : List Octet) (s : belt_dwp_st) :
    (beltDWPStepI buf s).ks = s.ks := rfl

@[simp] theorem beltDWPStepI_r (buf : List Octet) (s : belt_dwp_st) :
    (beltDWPStepI buf s).r = s.r := rfl

@[simp] theorem beltDWPStepI_lenHi (buf : List Octet) (s : belt_dwp_st) :
    (beltDWPStepI buf s).lenHi = s.lenHi := rfl

@[simp] theorem beltDWPStepI_lenLo (buf : List Octet) (s : belt_dwp_st) :
    (beltDWPStepI buf s).lenLo = (s.lenLo + 8 * buf.length) % 2 ^ 64 := rfl

theorem beltDWPStepI_t (buf : List Octet) (s : belt_dwp_st) (h : s.block.length < 16) :
    (beltDWPStepI buf s).t = absorbMany s.pmul s.r s.t (fullChunks (s.block ++ buf)) := by
  unfold beltDWPStepI
  rw [dwpAccum_nf _ _ _ _ _ h]

theorem beltDWPStepI_block (buf : List Octet) (s : belt_dwp_st) (h : s.block.length < 16) :
    (beltDWPStepI buf s).block = remChunk (s.block ++ buf) := by
  unfold beltDWPStepI
  rw [dwpAccum_nf _ _ _ _ _ h]

@[simp] theorem beltDWPStepA_noPad_encr (buf : List Octet) (s : belt_dwp_st) :
    (beltDWPStepA_noPad buf s).encr = s.encr := rfl

@[simp] theorem beltDWPStepA_noPad_pmul (buf : List Octet) (s : belt_dwp_st) :
    (beltDWPStepA_noPad buf s).pmul = s.pmul := rfl

@[simp] theorem beltDWPStepA_noPad_ctr (buf : List Octet) (s : belt_dwp_st) :
    (beltDWPStepA_noPad buf s).ctr = s.ctr := rfl

@[simp] theorem beltDWPStepA_noPad_ks (buf : List Octet) (s : belt_dwp_st) :
    (beltDWPStepA_noPad buf s).ks = s.ks := rfl

@[simp] theorem beltDWPStepA_noPad_r (buf : List Octet) (s : belt_dwp_st) :
    (beltDWPStepA_noPad buf s).r = s.r := rfl

@[simp] theorem beltDWPStepA_noPad_lenLo (buf : List Octet) (s : belt_dwp_st) :
    (beltDWPStepA_noPad buf s).lenLo = s.lenLo := rfl

@[simp] theorem beltDWPStepA_noPad_lenHi (buf : List Octet) (s : belt_dwp_st) :
    (beltDWPStepA_noPad buf s).lenHi = (s.lenHi + 8 * buf.length) % 2 ^ 64 := rfl

theorem beltDWPStepA_noPad_t (buf : List Octet) (s : belt_dwp_st) (h : s.block.length < 16) :
    (beltDWPStepA_noPad buf s).t = absorbMany s.pmul s.r s.t (fullChunks (s.block ++ buf)) := by
  unfold beltDWPStepA_noPad
  rw [dwpAccum_nf _ _ _ _ _ h]

theorem beltDWPStepA_noPad_block (buf : List Octet) (s : belt_dwp_st) (h : s.block.length < 16) :
    (beltDWPStepA_noPad buf s).block = remChunk (s.block ++ buf) := by
  unfold beltDWPStepA_noPad
  rw [dwpAccum_nf _ _ _ _ _ h]

@[simp] theorem beltDWPStepA_encr (buf : List Octet) (s : belt_dwp_st) :
    (beltDWPStepA buf s).encr = s.encr := by
  unfold beltDWPStepA; split <;> rfl

@[simp] theorem beltDWPStepA_pmul (buf : List Octet) (s : belt_dwp_st) :
    (beltDWPStepA buf s).pmul = s.pmul := by
  unfold beltDWPStepA; split <;> rfl

@[simp] theorem beltDWPStepA_ctr (buf : List Octet) (s : belt_dwp_st) :
    (beltDWPStepA buf s).ctr = s.ctr := by
  unfold beltDWPStepA; split <;> rfl

@[simp] theorem beltDWPStepA_ks (buf : List Octet) (s : belt_dwp_st) :
    (beltDWPStepA buf s).ks = s.ks := by
  unfold beltDWPStepA; split <;> rfl

@[simp] theorem beltDWPStepA_r (buf : List Octet) (s : belt_dwp_st) :
    (beltDWPStepA buf s).r = s.r := by
  unfold beltDWPStepA; split <;> rfl

@[simp] theorem beltDWPStepA_lenLo (buf : List Octet) (s : belt_dwp_st) :
    (beltDWPStepA buf s).lenLo = s.lenLo := by
  unfold beltDWPStepA; split <;> rfl

@[simp] theorem beltDWPStepA_lenHi (buf : List Octet) (s : belt_dwp_st) :
    (beltDWPStepA buf s).lenHi = (s.lenHi + 8 * buf.length) % 2 ^ 64 := by
  unfold beltDWPStepA; split <;> rfl

@[simp] theorem beltDWPStepG_internal_encr (s : belt_dwp_st) :
    (beltDWPStepG_internal s).encr = s.encr := rfl

@[simp] theorem beltDWPStepG_internal_pmul (s : belt_dwp_st) :
    (beltDWPStepG_internal s).pmul = s.pmul := rfl

@[simp] theorem beltDWPStepG_internal_ctr (s : belt_dwp_st) :
    (beltDWPStepG_internal s).ctr = s.ctr := rfl

@[simp] theorem beltDWPStepG_internal_ks (s : belt_dwp_st) :
    (beltDWPStepG_internal s).ks = s.ks := rfl

@[simp] theorem beltDWPStepG_internal_r (s : belt_dwp_st) :
    (beltDWPStepG_internal s).r = s.r := rfl

@[simp] theorem beltDWPStepG_internal_lenLo (s : belt_dwp_st) :
    (beltDWPStepG_internal s).lenLo = s.lenLo := rfl

@[simp] theorem beltDWPStepG_internal_lenHi (s : belt_dwp_st) :
    (beltDWPStepG_internal s).lenHi = s.lenHi := rfl

/-! CTR keystream lemmas. -/

theorem ctrCrypt_fst_length (E : Block → Block) (buf : List Octet) (c : Nat) (ks : List Octet) :
    (ctrCrypt E buf c ks).1.length = buf.length := by
  induction buf generalizing c ks with
  | nil => rfl
  | cons o rest ih =>
      cases ks with
      | nil => simp [ctrCrypt, ih]
      | cons k ks => simp [ctrCrypt, ih]

theorem ctrCrypt_append (E : Block → Block) (a b : List Octet) (c : Nat) (ks : List Octet) :
    ctrCrypt E (a ++ b) c ks =
      ((ctrCrypt E a c ks).1 ++
        (ctrCrypt E b (ctrCrypt E a c ks).2.1 (ctrCrypt E a c ks).2.2).1,
       (ctrCrypt E b (ctrCrypt E a c ks).2.1 (ctrCrypt E a c ks).2.2).2) := by
  induction a generalizing c ks with
  | nil => simp [ctrCrypt]
  | cons o rest ih =>
      cases ks with
      | nil => simp [ctrCrypt, ih]
      | cons k ks => simp [ctrCrypt, ih]

theorem ctrCrypt_invol (E : Block → Block) (buf : List Octet) (c : Nat) (ks : List Octet) :
    (ctrCrypt E (ctrCrypt E buf c ks).1 c ks).1 = buf := by
  induction buf generalizing c ks with
  | nil => rfl
  | cons o rest ih =>
      cases ks with
      | nil => simp [ctrCrypt, ih, Nat.xor_assoc]
      | cons k ks => simp [ctrCrypt, ih, Nat.xor_assoc]

/-! Nil and append behaviour of the absorption steps. -/

theorem dwpAccum_nil (pm : Block → Block → Block) (r t : Block) (pending : List Octet)
    (hp : pending.length < 16) :
    dwpAccum pm r t pending [] = (t, pending) := by
  unfold dwpAccum
  by_cases h0 : pending.length = 0
  · have hpel : pending = [] := List.length_eq_zero.mp h0
    subst hpel
    rw [if_neg (by simp)]
    exact absorbLoop_done pm r t [] (by simp)
  · rw [if_pos h0, if_pos (by simp; omega)]
    simp

theorem beltDWPStepI_nil (s : belt_dwp_st) (h : s.block.length < 16)
    (hLo : s.lenLo < 2 ^ 64) :
    beltDWPStepI [] s = s := by
  unfold beltDWPStepI
  rw [dwpAccum_nil _ _ _ _ h]
  apply belt_dwp_st.ext
  any_goals rfl
  simp only [List.length_nil, Nat.mul_zero, Nat.add_zero]
  omega

theorem beltDWPStepA_nil (s : belt_dwp_st) (h : s.block.length < 16)
    (hHi : s.lenHi < 2 ^ 64) :
    beltDWPStepA [] s = s := by
  unfold beltDWPStepA beltDWPStepA_noPad
  rw [if_neg (by simp)]
  rw [dwpAccum_nil _ _ _ _ h]
  apply belt_dwp_st.ext
  any_goals rfl
  simp only [List.length_nil, Nat.mul_zero, Nat.add_zero]
  omega

theorem beltDWPStepI_append (a b : List Octet) (s : belt_dwp_st) (h : s.block.length < 16) :
    beltDWPStepI b (beltDWPStepI a s) = beltDWPStepI (a ++ b) s := by
  have h2 : (beltDWPStepI a s).block.length < 16 := by
    rw [beltDWPStepI_block a s h]; exact remChunk_length _
  apply belt_dwp_st.ext
  · rfl
  · rfl
  · rfl
  · rfl
  · rfl
  · rw [beltDWPStepI_t b _ h2, beltDWPStepI_t a s h, beltDWPStepI_block a s h,
      beltDWPStepI_t (a ++ b) s h, beltDWPStepI_pmul, beltDWPStepI_r,
      ← List.append_assoc, fullChunks_append (s.block ++ a) b, absorbMany_append]
  · rw [beltDWPStepI_lenLo, beltDWPStepI_lenLo, beltDWPStepI_lenLo, Nat.mod_add_mod,
      List.length_append, Nat.mul_add, Nat.add_assoc]
  · rfl
  · rw [beltDWPStepI_block b _ h2, beltDWPStepI_block a s h, beltDWPStepI_block (a ++ b) s h,
      ← List.append_assoc, remChunk_append (s.block ++ a) b]

theorem beltDWPStepA_noPad_append (a b : List Octet) (s : belt_dwp_st)
    (h : s.block.length < 16) :
    beltDWPStepA_noPad b (beltDWPStepA_noPad a s) = beltDWPStepA_noPad (a ++ b) s := by
  have h2 : (beltDWPStepA_noPad a s).block.length < 16 := by
    rw [beltDWPStepA_noPad_block a s h]; exact remChunk_length _
  apply belt_dwp_st.ext
  · rfl
  · rfl
  · rfl
  · rfl
  · rfl
  · rw [beltDWPStepA_noPad_t b _ h2, beltDWPStepA_noPad_t a s h,
      beltDWPStepA_noPad_block a s h, beltDWPStepA_noPad_t (a ++ b) s h,
      beltDWPStepA_noPad_pmul, beltDWPStepA_noPad_r,
      ← List.append_assoc, fullChunks_append (s.block ++ a) b, absorbMany_append]
  · rfl
  · rw [beltDWPStepA_noPad_lenHi, beltDWPStepA_noPad_lenHi, beltDWPStepA_noPad_lenHi,
      Nat.mod_add_mod, List.length_append, Nat.mul_add, Nat.add_assoc]
  · rw [beltDWPStepA_noPad_block b _ h2, beltDWPStepA_noPad_block a s h,
      beltDWPStepA_noPad_block (a ++ b) s h,
      ← List.append_assoc, remChunk_append (s.block ++ a) b]

theorem beltDWPStepA_boundary (buf : List Octet) (s : belt_dwp_st)
    (hg : buf.length ≠ 0 ∧ s.lenHi = 0 ∧ s.block.length ≠ 0) :
    beltDWPStepA buf s =
      beltDWPStepA_noPad buf
        { s with t := absorb1 s.pmul s.r s.t (s.block ++ List.replicate (16 - s.block.length) 0)
                 block := [] } := by
  unfold beltDWPStepA
  rw [if_pos hg]

theorem beltDWPStepA_no_boundary (buf : List Octet) (s : belt_dwp_st)
    (hg : ¬(buf.length ≠ 0 ∧ s.lenHi = 0 ∧ s.block.length ≠ 0)) :
    beltDWPStepA buf s = beltDWPStepA_noPad buf s := by
  unfold beltDWPStepA
  rw [if_neg hg]

theorem beltDWPStepA_of_lenHi_ne (buf : List Octet) (s : belt_dwp_st) (hHi : s.lenHi ≠ 0) :
    beltDWPStepA buf s = beltDWPStepA_noPad buf s :=
  beltDWPStepA_no_boundary buf s (fun hc => hHi hc.2.1)

theorem beltDWPStepA_block_lt (buf : List Octet) (s : belt_dwp_st) (h : s.block.length < 16) :
    (beltDWPStepA buf s).block.length < 16 := by
  unfold beltDWPStepA
  split
  · rw [beltDWPStepA_noPad_block _ _ (by simp)]
    exact remChunk_length _
  · rw [beltDWPStepA_noPad_block _ _ h]
    exact remChunk_length _

theorem beltDWPStepI_block_lt (buf : List Octet) (s : belt_dwp_st) (h : s.block.length < 16) :
    (beltDWPStepI buf s).block.length < 16 := by
  rw [beltDWPStepI_block _ _ h]
  exact remChunk_length _

theorem beltDWPStepA_append (a b : List Octet) (s : belt_dwp_st) (h : s.block.length < 16)
    (hov : s.lenHi + 8 * a.length + 8 * b.length < 2 ^ 64) :
    beltDWPStepA b (beltDWPStepA a s) = beltDWPStepA (a ++ b) s := by
  by_cases ha : a = []
  · subst ha
    rw [beltDWPStepA_nil s h (by omega)]
    simp
  · have haL : a.length ≠ 0 := fun hc => ha (List.length_eq_zero.mp hc)
    have hXHi : (beltDWPStepA a s).lenHi ≠ 0 := by
      rw [beltDWPStepA_lenHi, Nat.mod_eq_of_lt (by omega)]
      omega
    rw [beltDWPStepA_of_lenHi_ne b _ hXHi]
    by_cases hG : s.lenHi = 0 ∧ s.block.length ≠ 0
    · rw [beltDWPStepA_boundary a s ⟨haL, hG.1, hG.2⟩,
        beltDWPStepA_boundary (a ++ b) s ⟨by simp [haL], hG.1, hG.2⟩,
        beltDWPStepA_noPad_append a b _ (by simp)]
    · rw [beltDWPStepA_no_boundary a s (fun hc => hG ⟨hc.2.1, hc.2.2⟩),
        beltDWPStepA_no_boundary (a ++ b) s (fun hc => hG ⟨hc.2.1, hc.2.2⟩),
        beltDWPStepA_noPad_append a b s h]

@[simp] theorem beltDWPStepG_fst (s : belt_dwp_st) :
    (beltDWPStepG s).1 = (beltDWPStepG_internal s).t.take 8 := rfl

@[simp] theorem beltDWPStepG_snd (s : belt_dwp_st) :
    (beltDWPStepG s).2 = beltDWPStepG_internal s := rfl

@[simp] theorem beltDWPStepV_fst (mac : List Octet) (s : belt_dwp_st) :
    (beltDWPStepV mac s).1 =
      decide (mac.take 8 = (beltDWPStepG_internal s).t.take 8) := rfl

@[simp] theorem beltDWPStepV_snd (mac : List Octet) (s : belt_dwp_st) :
    (beltDWPStepV mac s).2 = beltDWPStepG_internal s := rfl

/-! Commutation of the CTR stream with the authentication accumulator, and
finalization congruence. -/

theorem beltDWPStepA_t_eq (buf : List Octet) (s : belt_dwp_st) :
    (beltDWPStepA buf s).t =
      if buf.length ≠ 0 ∧ s.lenHi = 0 ∧ s.block.length ≠ 0 then
        (dwpAccum s.pmul s.r
          (absorb1 s.pmul s.r s.t (s.block ++ List.replicate (16 - s.block.length) 0))
          [] buf).1
      else
        (dwpAccum s.pmul s.r s.t s.block buf).1 := by
  unfold beltDWPStepA
  split <;> rfl

theorem beltDWPStepA_block_eq (buf : List Octet) (s : belt_dwp_st) :
    (beltDWPStepA buf s).block =
      if buf.length ≠ 0 ∧ s.lenHi = 0 ∧ s.block.length ≠ 0 then
        (dwpAccum s.pmul s.r
          (absorb1 s.pmul s.r s.t (s.block ++ List.replicate (16 - s.block.length) 0))
          [] buf).2
      else
        (dwpAccum s.pmul s.r s.t s.block buf).2 := by
  unfold beltDWPStepA
  split <;> rfl

theorem beltDWPStepA_ctr_update (b1 : List Octet) (s : belt_dwp_st) (c : Nat)
    (k : List Octet) :
    beltDWPStepA b1 { s with ctr := c, ks := k } =
      { beltDWPStepA b1 s with ctr := c, ks := k } := by
  apply belt_dwp_st.ext <;>
    simp [beltDWPStepA_t_eq, beltDWPStepA_block_eq]

theorem beltDWPStepE_stepA_comm (b1 b2 : List Octet) (s : belt_dwp_st) :
    beltDWPStepE b2 (beltDWPStepA b1 s) =
      ((beltDWPStepE b2 s).1, beltDWPStepA b1 (beltDWPStepE b2 s).2) := by
  unfold beltDWPStepE
  simp only [beltDWPStepA_encr, beltDWPStepA_ctr, beltDWPStepA_ks, Prod.mk.injEq]
  refine ⟨trivial, ?_⟩
  apply belt_dwp_st.ext <;> simp [beltDWPStepA_t_eq, beltDWPStepA_block_eq]

theorem beltDWPStepG_internal_t_congr (s1 s2 : belt_dwp_st) (he : s1.encr = s2.encr)
    (hp : s1.pmul = s2.pmul) (hr : s1.r = s2.r) (ht : s1.t = s2.t)
    (hlo : s1.lenLo = s2.lenLo) (hhi : s1.lenHi = s2.lenHi) (hb : s1.block = s2.block) :
    (beltDWPStepG_internal s1).t = (beltDWPStepG_internal s2).t := by
  unfold beltDWPStepG_internal
  simp only [he, hp, hr, ht, hlo, hhi, hb]

theorem unwrap_decrypt (s1 : belt_dwp_st) (payload : List Octet) (s2 : belt_dwp_st)
    (hc : s2.ctr = s1.ctr) (hk : s2.ks = s1.ks) (he : s2.encr = s1.encr) :
    (beltDWPStepD (beltDWPStepE payload s1).1 s2).1 = payload := by
  unfold beltDWPStepD beltDWPStepE
  simp only [hc, hk, he]
  exact ctrCrypt_invol s1.encr payload s1.ctr s1.ks

/-- C1: for every key of length 16, 24 or 32 octets, every 16-octet iv, every
header and every payload — and any behaviour of the external block cipher `E`
and polynomial multiplication `pm` — calling `beltDWPUnwrap` on the
(ciphertext, mac) pair produced by `beltDWPWrap` with the same key, iv and
header returns `ERR_OK` and writes the original payload into dest. -/
theorem C1_wrap_unwrap_round_trip
    (E : List Octet → Block → Block) (pm : Block → Block → Block)
    (key iv header payload d0 m0 d1 : List Octet)
    (hk : key.length = 16 ∨ key.length = 24 ∨ key.length = 32)
    (hiv : iv.length = 16) :
    (beltDWPWrap E pm true true d0 m0 payload header key iv).1 = err_t.ERR_OK ∧
    beltDWPUnwrap E pm true true d1
        (beltDWPWrap E pm true true d0 m0 payload header key iv).2.1 header
        (beltDWPWrap E pm true true d0 m0 payload header key iv).2.2 key iv =
      (err_t.ERR_OK, payload) := by
  have hnc : ¬((key.length ≠ 16 ∧ key.length ≠ 24 ∧ key.length ≠ 32) ∨
      (true : Bool) = false) := by
    rcases hk with h | h | h <;> simp [h]
  have hna : ¬((true : Bool) = false) := by simp
  set s1 := beltDWPStepI header (beltDWPStart E pm key iv) with hs1
  set ct := (beltDWPStepE payload s1).1 with hct
  set sU := beltDWPStepA ct s1 with hsU
  set sW := beltDWPStepA ct (beltDWPStepE payload s1).2 with hsW
  have hcomm : sW = (beltDWPStepE payload sU).2 := by
    rw [hsW, hsU, beltDWPStepE_stepA_comm]
  have htag : (beltDWPStepG sW).1 = (beltDWPStepG sU).1 := by
    rw [beltDWPStepG_fst, beltDWPStepG_fst, hcomm]
    congr 1
  have hwrap : beltDWPWrap E pm true true d0 m0 payload header key iv =
      (err_t.ERR_OK, ct, (beltDWPStepG sW).1) := by
    simp only [beltDWPWrap, if_neg hnc, if_neg hna]
  refine ⟨by rw [hwrap], ?_⟩
  rw [hwrap]
  show beltDWPUnwrap E pm true true d1 ct header (beltDWPStepG sW).1 key iv =
    (err_t.ERR_OK, payload)
  have hv : (beltDWPStepV (beltDWPStepG sW).1 sU).1 = true := by
    rw [beltDWPStepV_fst, htag, beltDWPStepG_fst]
    simp [List.take_take]
  simp only [beltDWPUnwrap, if_neg hnc, if_neg hna]
  rw [← hs1, ← hsU, hv, if_neg (by simp : ¬((true : Bool) = false))]
  simp only [Prod.mk.injEq]
  refine ⟨trivial, ?_⟩
  rw [beltDWPStepV_snd, hct]
  exact unwrap_decrypt s1 payload _ (by simp [hsU]) (by simp [hsU]) (by simp [hsU])

/-- C2 counterexample: at a concrete state, the tag emitted by
`beltDWPStepG` is not the big-endian interpretation of the low 8 octets of
the finalized block, as the claim states: `u32To` emits the low half in
little-endian memory order. -/
theorem C2_tag_not_big_endian_counterexample :
    (beltDWPStepG
      { encr := id, pmul := fun a _ => a, ctr := 0, ks := [],
        r := List.replicate 16 0,
        t := [0, 1, 2, 3, 4, 5, 6, 7, 8, 9, 10, 11, 12, 13, 14, 15],
        lenLo := 0, lenHi := 0, block := [] }).1 ≠
    dwpTagSpecBE
      { encr := id, pmul := fun a _ => a, ctr := 0, ks := [],
        r := List.replicate 16 0,
        t := [0, 1, 2, 3, 4, 5, 6, 7, 8, 9, 10, 11, 12, 13, 14, 15],
        lenLo := 0, lenHi := 0, block := [] } := by
  decide

/-- C2 amended: for every state, `beltDWPStepG` finalizes exactly as the
spec's words describe — zero-pad and absorb any residual partial block, XOR
the `len` block into `t`, multiply by `r`, encrypt the result with the cipher
key — and emits as the tag the low 8 octets of the result in the internal
little-endian memory order (not big-endian). -/
theorem C2_stepG_finalization (s : belt_dwp_st) :
    beltDWPStepG s =
      ((dwpFinalizeSpec s).take 8, { s with t := dwpFinalizeSpec s, block := [] }) := by
  rfl

/-- C3: on any input that passes validation but whose recomputed tag differs
from the supplied mac, `beltDWPUnwrap` returns `ERR_BAD_MAC` and the dest
buffer is returned completely unmodified — no plaintext octet is written. -/
theorem C3_bad_mac_leaves_dest_untouched
    (E : List Octet → Block → Block) (pm : Block → Block → Block)
    (dest src1 src2 mac key iv : List Octet)
    (hk : key.length = 16 ∨ key.length = 24 ∨ key.length = 32)
    (hmac : mac.take 8 ≠ (beltDWPStepG_internal (beltDWPStepA src1
        (beltDWPStepI src2 (beltDWPStart E pm key iv)))).t.take 8) :
    beltDWPUnwrap E pm true true dest src1 src2 mac key iv =
      (err_t.ERR_BAD_MAC, dest) := by
  rcases hk with h | h | h <;> simp [beltDWPUnwrap, h, hmac]

/-- C3 witness: a concrete tampered mac is rejected with the destination
buffer intact. -/
theorem C3_bad_mac_witness :
    beltDWPUnwrap (fun _ b => b) (fun a _ => a) true true [7] [] []
        [0, 0, 0, 0, 0, 0, 0, 0] (List.replicate 16 0) (List.replicate 16 0) =
      (err_t.ERR_BAD_MAC, [7]) :=
  C3_bad_mac_leaves_dest_untouched (fun _ b => b) (fun a _ => a) [7] [] []
    [0, 0, 0, 0, 0, 0, 0, 0] (List.replicate 16 0) (List.replicate 16 0)
    (by decide) (by decide)

/-- C4 counterexample: after `beltDWPStart` and a non-empty `beltDWPStepE`
call, a non-empty `beltDWPStepI` call still passes the assertion — it is not
rejected, contradicting the claim — because StepE never advances the payload
bit counter `len.hi`. -/
theorem C4_stepI_after_stepE_accepted_counterexample :
    beltDWPStepI_assert [1]
      (beltDWPStepE [5] (beltDWPStart (fun _ b => b) (fun a _ => a)
        (List.replicate 16 0) (List.replicate 16 0))).2 := by
  decide

/-- C4 amended: a non-empty `beltDWPStepI` call after a non-empty
`beltDWPStepA` call is rejected by the assertion, and a non-empty
`beltDWPStepI` call is permitted exactly while the payload bit counter
`len.hi` is zero (empty calls are always permitted, and `beltDWPStepE` does
not affect the assertion). -/
theorem C4_stepI_rejected_after_stepA (s : belt_dwp_st) (a b : List Octet)
    (hHi : s.lenHi = 0) (ha : a ≠ []) (hov : 8 * a.length < 2 ^ 64) (hb : b ≠ []) :
    ¬ beltDWPStepI_assert b (beltDWPStepA a s) ∧
    (∀ (s2 : belt_dwp_st) (c : List Octet), c ≠ [] →
      (beltDWPStepI_assert c s2 ↔ s2.lenHi = 0)) := by
  constructor
  · rintro (h | h)
    · exact hb (List.length_eq_zero.mp h)
    · rw [beltDWPStepA_lenHi, hHi, Nat.zero_add, Nat.mod_eq_of_lt hov] at h
      have haz : a.length = 0 := by omega
      exact ha (List.length_eq_zero.mp haz)
  · intro s2 c hc
    unfold beltDWPStepI_assert
    constructor
    · rintro (h | h)
      · exact absurd (List.length_eq_zero.mp h) hc
      · exact h
    · exact Or.inr

/-- C4 witness: concrete rejection of a non-empty StepI after a non-empty
StepA. -/
theorem C4_stepI_rejected_witness :
    ¬ beltDWPStepI_assert [2]
      (beltDWPStepA [1] (beltDWPStart (fun _ b => b) (fun a _ => a)
        (List.replicate 16 0) (List.replicate 16 0))) :=
  (C4_stepI_rejected_after_stepA _ [1] [2] (by decide) (by decide) (by decide)
    (by decide)).1

/-- C6: on the first non-empty `beltDWPStepA` call while the payload counter
is still zero and `filled > 0`, the staged block is zero-padded to 16 octets
and absorbed into the accumulator exactly once, with `filled` reset to 0
before any payload octet is accumulated (the call proceeds as the plain
accumulation from the padded state); and once the payload counter is
non-zero the pad branch is never taken again. -/
theorem C6_phase_boundary_pad_once (s : belt_dwp_st) (buf : List Octet)
    (hHi : s.lenHi = 0) (hf : s.block.length ≠ 0) (hb : buf ≠ []) :
    beltDWPStepA buf s =
      beltDWPStepA_noPad buf
        { s with t := absorb1 s.pmul s.r s.t
                   (s.block ++ List.replicate (16 - s.block.length) 0)
                 block := [] } ∧
    (∀ (s2 : belt_dwp_st) (c : List Octet), s2.lenHi ≠ 0 →
      beltDWPStepA c s2 = beltDWPStepA_noPad c s2) := by
  refine ⟨beltDWPStepA_boundary buf s
    ⟨fun hl => hb (List.length_eq_zero.mp hl), hHi, hf⟩, ?_⟩
  intro s2 c h2
  exact beltDWPStepA_of_lenHi_ne c s2 h2

/-- C6 witness: the boundary pad at a concrete state. -/
theorem C6_phase_boundary_witness :
    beltDWPStepA [9]
      { encr := id, pmul := fun a _ => a, ctr := 0, ks := [], r := [],
        t := List.replicate 16 0, lenLo := 8, lenHi := 0, block := [3] } =
      beltDWPStepA_noPad [9]
        { encr := id, pmul := fun a _ => a, ctr := 0, ks := [], r := [],
          t := absorb1 (fun a _ => a) []
            (List.replicate 16 0) ([3] ++ List.replicate 15 0),
          lenLo := 8, lenHi := 0, block := [] } :=
  (C6_phase_boundary_pad_once
    { encr := id, pmul := fun a _ => a, ctr := 0, ks := [], r := [],
      t := List.replicate 16 0, lenLo := 8, lenHi := 0, block := [3] }
    [9] (by decide) (by decide) (by decide)).1

/-- C7: both one-shot operations return `ERR_BAD_INPUT` whenever the key
length is not 16, 24 or 32 or a supplied buffer is invalid, and this happens
for every value of the allocation oracle (the check precedes state
construction); when the arguments are valid but the state allocation fails
they return `ERR_OUTOFMEMORY`. -/
theorem C7_validation_before_allocation
    (E : List Octet → Block → Block) (pm : Block → Block → Block)
    (allocOk valid : Bool) (d0 m0 d1 src1 src2 mac key iv : List Octet) :
    (((key.length ≠ 16 ∧ key.length ≠ 24 ∧ key.length ≠ 32) ∨ valid = false) →
      beltDWPWrap E pm allocOk valid d0 m0 src1 src2 key iv =
        (err_t.ERR_BAD_INPUT, d0, m0) ∧
      beltDWPUnwrap E pm allocOk valid d1 src1 src2 mac key iv =
        (err_t.ERR_BAD_INPUT, d1)) ∧
    (¬((key.length ≠ 16 ∧ key.length ≠ 24 ∧ key.length ≠ 32) ∨ valid = false) →
      allocOk = false →
      beltDWPWrap E pm allocOk valid d0 m0 src1 src2 key iv =
        (err_t.ERR_OUTOFMEMORY, d0, m0) ∧
      beltDWPUnwrap E pm allocOk valid d1 src1 src2 mac key iv =
        (err_t.ERR_OUTOFMEMORY, d1)) := by
  constructor
  · intro h
    constructor <;> simp [beltDWPWrap, beltDWPUnwrap, if_pos h]
  · intro h ha
    subst ha
    constructor <;> simp [beltDWPWrap, beltDWPUnwrap, if_neg h]

/-- C7 witness: a 9-octet key is rejected as `ERR_BAD_INPUT` even though
allocation would succeed, and a failing allocation on valid arguments gives
`ERR_OUTOFMEMORY`. -/
theorem C7_validation_witness :
    (beltDWPWrap (fun _ b => b) (fun a _ => a) true true [1] [2] [] []
        [9, 9, 9, 9, 9, 9, 9, 9, 9] (List.replicate 16 0) =
      (err_t.ERR_BAD_INPUT, [1], [2])) ∧
    (beltDWPUnwrap (fun _ b => b) (fun a _ => a) false true [3] [] [] []
        (List.replicate 16 0) (List.replicate 16 0) =
      (err_t.ERR_OUTOFMEMORY, [3])) :=
  ⟨((C7_validation_before_allocation (fun _ b => b) (fun a _ => a) true true
      [1] [2] [3] [] [] [] [9, 9, 9, 9, 9, 9, 9, 9, 9]
      (List.replicate 16 0)).1 (by decide)).1,
   ((C7_validation_before_allocation (fun _ b => b) (fun a _ => a) false true
      [1] [2] [3] [] [] [] (List.replicate 16 0)
      (List.replicate 16 0)).2 (by decide) rfl).2⟩

/-- C8: the invariant `filled < 16` holds at entry and exit of every public
operation: after `beltDWPStart` filled is 0, and every `beltDWPStepI` or
`beltDWPStepA` call that begins with `filled < 16` ends with `filled < 16`. -/
theorem C8_filled_invariant (E : List Octet → Block → Block)
    (pm : Block → Block → Block) (key iv : List Octet) (s : belt_dwp_st)
    (buf : List Octet) (h : s.filled < 16) :
    (beltDWPStart E pm key iv).filled = 0 ∧
    (beltDWPStepI buf s).filled < 16 ∧ (beltDWPStepA buf s).filled < 16 :=
  ⟨rfl, beltDWPStepI_block_lt buf s h, beltDWPStepA_block_lt buf s h⟩

/-- C8 witness: the invariant at a concrete state and inputs. -/
theorem C8_filled_witness :
    (beltDWPStart (fun _ b => b) (fun a _ => a) [] []).filled = 0 ∧
    (beltDWPStepI [1, 2, 3]
      { encr := id, pmul := fun a _ => a, ctr := 0, ks := [], r := [],
        t := List.replicate 16 0, lenLo := 0, lenHi := 0,
        block := List.replicate 14 7 }).filled < 16 ∧
    (beltDWPStepA [1, 2, 3]
      { encr := id, pmul := fun a _ => a, ctr := 0, ks := [], r := [],
        t := List.replicate 16 0, lenLo := 0, lenHi := 0,
        block := List.replicate 14 7 }).filled < 16 :=
  C8_filled_invariant (fun _ b => b) (fun a _ => a) [] []
    { encr := id, pmul := fun a _ => a, ctr := 0, ks := [], r := [],
      t := List.replicate 16 0, lenLo := 0, lenHi := 0,
      block := List.replicate 14 7 } [1, 2, 3] (by decide)

/-- C9: the authentication subkey `r` is never modified after `beltDWPStart`:
`beltDWPStepI`, `beltDWPStepA`, `beltDWPStepE`, `beltDWPStepD`,
`beltDWPStepG` and `beltDWPStepV` all leave `r` unchanged. -/
theorem C9_r_never_modified (s : belt_dwp_st) (buf buf2 mac : List Octet) :
    (beltDWPStepI buf s).r = s.r ∧ (beltDWPStepA buf s).r = s.r ∧
    ((beltDWPStepE buf2 s).2).r = s.r ∧ ((beltDWPStepD buf2 s).2).r = s.r ∧
    ((beltDWPStepG s).2).r = s.r ∧ ((beltDWPStepV mac s).2).r = s.r :=
  ⟨rfl, beltDWPStepA_r buf s, rfl, rfl, rfl, rfl⟩

/-- C10: empty `beltDWPStepI` and `beltDWPStepA` calls are always accepted —
the StepI assertion holds even when payload has been absorbed — and leave
every field of the state unchanged; in particular an empty StepA does not
trigger the phase-boundary padding.  The hypotheses are the representation
invariants of the source state (64-bit length counters, `filled < 16`). -/
theorem C10_empty_calls_are_no_ops (s : belt_dwp_st) (h : s.filled < 16)
    (hLo : s.lenLo < 2 ^ 64) (hHi : s.lenHi < 2 ^ 64) :
    beltDWPStepI_assert [] s ∧ beltDWPStepI [] s = s ∧ beltDWPStepA [] s = s :=
  ⟨Or.inl rfl, beltDWPStepI_nil s h hLo, beltDWPStepA_nil s h hHi⟩

/-- C10 witness: a concrete state (with payload already absorbed, so the
StepI assertion is exercised in the interesting case) is unchanged by empty
calls. -/
theorem C10_empty_calls_witness :
    beltDWPStepI_assert []
      { encr := id, pmul := fun a _ => a, ctr := 3, ks := [4], r := [5],
        t := List.replicate 16 1, lenLo := 24, lenHi := 8, block := [6] } ∧
    beltDWPStepI []
      { encr := id, pmul := fun a _ => a, ctr := 3, ks := [4], r := [5],
        t := List.replicate 16 1, lenLo := 24, lenHi := 8, block := [6] } =
      { encr := id, pmul := fun a _ => a, ctr := 3, ks := [4], r := [5],
        t := List.replicate 16 1, lenLo := 24, lenHi := 8, block := [6] } ∧
    beltDWPStepA []
      { encr := id, pmul := fun a _ => a, ctr := 3, ks := [4], r := [5],
        t := List.replicate 16 1, lenLo := 24, lenHi := 8, block := [6] } =
      { encr := id, pmul := fun a _ => a, ctr := 3, ks := [4], r := [5],
        t := List.replicate 16 1, lenLo := 24, lenHi := 8, block := [6] } :=
  C10_empty_calls_are_no_ops
    { encr := id, pmul := fun a _ => a, ctr := 3, ks := [4], r := [5],
      t := List.replicate 16 1, lenLo := 24, lenHi := 8, block := [6] }
    (by decide) (by decide) (by decide)

/-- C1 witness: a concrete round trip. -/
theorem C1_round_trip_witness :
    (beltDWPWrap (fun _ b => b) (fun a _ => a) true true [0, 0, 0] [0] [10, 20, 30]
        [1, 2] (List.replicate 16 0) (List.replicate 16 1)).1 = err_t.ERR_OK ∧
    beltDWPUnwrap (fun _ b => b) (fun a _ => a) true true [9, 9, 9]
        (beltDWPWrap (fun _ b => b) (fun a _ => a) true true [0, 0, 0] [0] [10, 20, 30]
          [1, 2] (List.replicate 16 0) (List.replicate 16 1)).2.1 [1, 2]
        (beltDWPWrap (fun _ b => b) (fun a _ => a) true true [0, 0, 0] [0] [10, 20, 30]
          [1, 2] (List.replicate 16 0) (List.replicate 16 1)).2.2
        (List.replicate 16 0) (List.replicate 16 1) =
      (err_t.ERR_OK, [10, 20, 30]) :=
  C1_wrap_unwrap_round_trip (fun _ b => b) (fun a _ => a) (List.replicate 16 0)
    (List.replicate 16 1) [1, 2] [10, 20, 30] [0, 0, 0] [0] [9, 9, 9]
    (by decide) (by decide)

/-! Chunked processing equals one-shot processing (claim C5 machinery). -/

theorem beltDWPStepE_append (a b : List Octet) (s : belt_dwp_st) :
    beltDWPStepE (a ++ b) s =
      ((beltDWPStepE a s).1 ++ (beltDWPStepE b (beltDWPStepE a s).2).1,
       (beltDWPStepE b (beltDWPStepE a s).2).2) := by
  unfold beltDWPStepE
  simp only [ctrCrypt_append]

theorem stepIList_join (cs : List (List Octet)) (s : belt_dwp_st)
    (h : s.block.length < 16) (hLo : s.lenLo < 2 ^ 64) :
    stepIList cs s = beltDWPStepI cs.flatten s := by
  induction cs generalizing s with
  | nil =>
      simp only [stepIList, List.foldl_nil, List.flatten_nil]
      exact (beltDWPStepI_nil s h hLo).symm
  | cons c cs ih =>
      have h2 : (beltDWPStepI c s).block.length < 16 := beltDWPStepI_block_lt c s h
      have hLo2 : (beltDWPStepI c s).lenLo < 2 ^ 64 := by
        rw [beltDWPStepI_lenLo]
        exact Nat.mod_lt _ (by norm_num)
      simp only [stepIList, List.foldl_cons, List.flatten_cons]
      rw [show List.foldl (fun s c => beltDWPStepI c s) (beltDWPStepI c s) cs =
            stepIList cs (beltDWPStepI c s) from rfl,
        ih (beltDWPStepI c s) h2 hLo2, beltDWPStepI_append c cs.flatten s h]

theorem wrapChunks_join (ps : List (List Octet)) (s : belt_dwp_st)
    (h : s.block.length < 16) (hov : s.lenHi + 8 * (List.flatten ps).length < 2 ^ 64) :
    wrapChunks ps s =
      ((beltDWPStepE (List.flatten ps) s).1,
       beltDWPStepA (beltDWPStepE (List.flatten ps) s).1
         (beltDWPStepE (List.flatten ps) s).2) := by
  induction ps generalizing s with
  | nil =>
      simp only [List.flatten_nil]
      show ([], s) = _
      rw [show (beltDWPStepE [] s).1 = ([] : List Octet) from rfl,
        show (beltDWPStepE [] s).2 = s from rfl,
        beltDWPStepA_nil s h (by simpa using hov)]
  | cons p ps ih =>
      have hlenc1 : (beltDWPStepE p s).1.length = p.length := ctrCrypt_fst_length _ _ _ _
      have hov2 : s.lenHi + 8 * p.length + 8 * (List.flatten ps).length < 2 ^ 64 := by
        have hj : (List.flatten (p :: ps)).length = p.length + (List.flatten ps).length := by
          simp
        omega
      have hblk2 : (beltDWPStepA (beltDWPStepE p s).1 (beltDWPStepE p s).2).block.length < 16 :=
        beltDWPStepA_block_lt _ _ (by simpa using h)
      have hHi2 : (beltDWPStepA (beltDWPStepE p s).1 (beltDWPStepE p s).2).lenHi =
          s.lenHi + 8 * p.length := by
        rw [beltDWPStepA_lenHi, beltDWPStepE_lenHi, hlenc1, Nat.mod_eq_of_lt (by omega)]
      have e1 := ih (beltDWPStepA (beltDWPStepE p s).1 (beltDWPStepE p s).2) hblk2
        (by rw [hHi2]; omega)
      simp only [wrapChunks]
      rw [e1]
      have hlenc2 : (beltDWPStepE (List.flatten ps) (beltDWPStepE p s).2).1.length =
          (List.flatten ps).length := ctrCrypt_fst_length _ _ _ _
      rw [List.flatten_cons, beltDWPStepE_append p (List.flatten ps) s,
        beltDWPStepE_stepA_comm (beltDWPStepE p s).1 (List.flatten ps) (beltDWPStepE p s).2]
      simp only [Prod.mk.injEq]
      refine ⟨trivial, ?_⟩
      rw [beltDWPStepA_append _ _ _ (by simpa using h)
        (by simp only [beltDWPStepE_lenHi, beltDWPStepE_fst, beltDWPStepE_block,
              ctrCrypt_fst_length, List.length_append]
            omega)]

/-- C5: for every partition `hs` of the header (fed chunk by chunk to
`beltDWPStepI`) and every partition `ps` of the payload (each chunk encrypted
by `beltDWPStepE` and its ciphertext chunk absorbed by `beltDWPStepA`, the
order `beltDWPWrap` drives), the resulting ciphertext and tag are identical
to those produced by processing the same header and payload in a single call
each, provided the total payload length respects the source's 64-bit
bit-counter bound. -/
theorem C5_chunking_independence
    (E : List Octet → Block → Block) (pm : Block → Block → Block)
    (key iv : List Octet) (hs ps : List (List Octet))
    (hov : 8 * (List.flatten ps).length < 2 ^ 64) :
    (wrapChunks ps (stepIList hs (beltDWPStart E pm key iv))).1 =
      (beltDWPStepE (List.flatten ps)
        (beltDWPStepI (List.flatten hs) (beltDWPStart E pm key iv))).1 ∧
    (beltDWPStepG (wrapChunks ps (stepIList hs (beltDWPStart E pm key iv))).2).1 =
      (beltDWPStepG (beltDWPStepA
        (beltDWPStepE (List.flatten ps)
          (beltDWPStepI (List.flatten hs) (beltDWPStart E pm key iv))).1
        (beltDWPStepE (List.flatten ps)
          (beltDWPStepI (List.flatten hs) (beltDWPStart E pm key iv))).2)).1 := by
  have h0b : (beltDWPStart E pm key iv).block.length < 16 := by
    show ([] : List Octet).length < 16
    norm_num
  have h0lo : (beltDWPStart E pm key iv).lenLo < 2 ^ 64 := by
    show 0 < 2 ^ 64
    norm_num
  have hI : stepIList hs (beltDWPStart E pm key iv) =
      beltDWPStepI (List.flatten hs) (beltDWPStart E pm key iv) :=
    stepIList_join hs _ h0b h0lo
  have hW := wrapChunks_join ps
    (beltDWPStepI (List.flatten hs) (beltDWPStart E pm key iv))
    (beltDWPStepI_block_lt _ _ h0b)
    (by
      rw [beltDWPStepI_lenHi]
      show 0 + 8 * (List.flatten ps).length < 2 ^ 64
      omega)
  rw [hI, hW]
  exact ⟨rfl, rfl⟩

/-- C5 witness: a concrete chunking (header in two chunks, payload in two
chunks) produces the one-shot ciphertext and tag. -/
theorem C5_chunking_witness :
    (wrapChunks [[4, 5], [6]] (stepIList [[1], [2, 3]]
        (beltDWPStart (fun _ b => b) (fun a _ => a)
          (List.replicate 16 0) (List.replicate 16 1)))).1 =
      (beltDWPStepE (List.flatten [[4, 5], [6]])
        (beltDWPStepI (List.flatten [[1], [2, 3]])
          (beltDWPStart (fun _ b => b) (fun a _ => a)
            (List.replicate 16 0) (List.replicate 16 1)))).1 ∧
    (beltDWPStepG (wrapChunks [[4, 5], [6]] (stepIList [[1], [2, 3]]
        (beltDWPStart (fun _ b => b) (fun a _ => a)
          (List.replicate 16 0) (List.replicate 16 1)))).2).1 =
      (beltDWPStepG (beltDWPStepA
        (beltDWPStepE (List.flatten [[4, 5], [6]])
          (beltDWPStepI (List.flatten [[1], [2, 3]])
            (beltDWPStart (fun _ b => b) (fun a _ => a)
              (List.replicate 16 0) (List.replicate 16 1)))).1
        (beltDWPStepE (List.flatten [[4, 5], [6]])
          (beltDWPStepI (List.flatten [[1], [2, 3]])
            (beltDWPStart (fun _ b => b) (fun a _ => a)
              (List.replicate 16 0) (List.replicate 16 1)))).2)).1 :=
  C5_chunking_independence (fun _ b => b) (fun a _ => a)
    (List.replicate 16 0) (List.replicate 16 1) [[1], [2, 3]] [[4, 5], [6]]
    (by norm_num)
